import Mathlib

/-!
# Verification of the Binary Data Analyzer core

Shallow embedding of `src/Binary_Data_Analyzer.cpp`: the sort primitive
(`selection_sort`), the search primitive (`binary_search_recursive` /
`binary_search`), and the four analyzer variants (Statistics, Duplicate,
Missing, Search).  Sequences are `List Int`; the unspecified iteration
order of a `std::unordered_map` is made explicit as an `order` parameter
that ranges over permutations of the distinct keys; `double` arithmetic
(mean, median) is modelled exactly by `Rat`; the `rand()` draws of the
Search analyzer are an explicit list of keys.
-/

/-- Inner loop of `selection_sort` (lines 230-235): scan the rest of the
array for the index of the minimum.  `bv` and `bi` are the current best
value `values[minIndex]` and index `minIndex`; `j` is the absolute index
of the head of the remaining list. -/
def minIdxGo : List Int → Int → Nat → Nat → Nat
  | [], _, bi, _ => bi
  | y :: ys, bv, bi, j => if y < bv then minIdxGo ys y j (j + 1) else minIdxGo ys bv bi (j + 1)

/-- Value-level companion of `minIdxGo`: the value held in `values[minIndex]`
when the inner loop finishes. -/
def minValGo : List Int → Int → Int
  | [], bv => bv
  | y :: ys, bv => if y < bv then minValGo ys y else minValGo ys bv

/-- `std::swap(values[i], values[j])` on a list: exchange the elements at
positions `i` and `j` (identity when either index is out of range, which
the embedded calls never are). -/
def swapList (l : List Int) (i j : Nat) : List Int :=
  match l[i]?, l[j]? with
  | some a, some b => (l.set i b).set j a
  | _, _ => l

/-- Outer loop of `selection_sort` (lines 229-237), one fuel unit per
iteration of `i`: position `i` is the head of the remaining list, the swap
moves the minimum of the suffix to the front, and the recursion sorts the
rest.  The loop condition `i < size - 1` means lists of length 0 or 1 are
left untouched. -/
def selSortGo : Nat → List Int → List Int
  | 0, l => l
  | _ + 1, [] => []
  | _ + 1, [x] => [x]
  | fuel + 1, x :: y :: xs =>
    let swapped := swapList (x :: y :: xs) 0 (minIdxGo (y :: xs) x 0 1)
    swapped.headD 0 :: selSortGo fuel swapped.tail

/-- `selection_sort` (lines 228-238): in-place ascending selection sort,
embedded functionally.  The fuel `l.length` dominates the `size - 1`
iterations of the outer loop. -/
def selection_sort (l : List Int) : List Int := selSortGo l.length l

/-- `binary_search_recursive` (lines 241-253): classic recursive halving on
`int` bounds `start`/`e` (the C parameter `end`).  `values[mid]` is embedded
as `values.getD mid.toNat 0`; in-range calls never rely on the default. -/
def binary_search_recursive (values : List Int) (key : Int) (start e : Int) : Bool :=
  if start > e then false
  else
    let mid := start + (e - start) / 2
    let v := values.getD mid.toNat 0
    if v = key then true
    else if v > key then binary_search_recursive values key start (mid - 1)
    else binary_search_recursive values key (mid + 1) e
termination_by (e + 1 - start).toNat
decreasing_by
  · simp only [Int.lt_iff_add_one_le] at *
    omega
  · simp only [Int.lt_iff_add_one_le] at *
    omega

/-- `binary_search` (lines 256-258): search the first `size` elements,
starting the recursion on the bounds `0` and `size - 1`. -/
def binary_search (values : List Int) (size : Nat) (key : Int) : Bool :=
  binary_search_recursive values key 0 ((size : Int) - 1)

/-- Result record of `StatisticsAnalyzer::analyze` (lines 57-95), one field
per reported number.  `double` values (mean, median) are carried exactly as
rationals. -/
structure StatsReport where
  minVal : Int
  maxVal : Int
  mean : Rat
  median : Rat
  mode : Int
  modeCount : Nat
deriving DecidableEq

/-- Mode loop of `StatisticsAnalyzer::analyze` (lines 77-84): fold over the
keys of `frequencyMap` in the (implementation-defined) iteration order
`order`, starting from `mode = values[0]`, `maxFrequency = 1`, replacing the
pair whenever the key's frequency strictly exceeds the running maximum.
`s.count k` is the entry `frequencyMap[k]` built on lines 66-69. -/
def statsMode (s : List Int) (order : List Int) : Int × Nat :=
  order.foldl (fun acc k => if s.count k > acc.2 then (k, s.count k) else acc) (s.headD 0, 1)

/-- `StatisticsAnalyzer` (lines 49-96): the constructor clones the input and
sorts the copy; `analyze` returns the sentinel (`none`, the string
"No data to analyze.") when `size == 0`, otherwise min = `values[0]`,
max = `values[size-1]`, mean = `sum / size`, median = middle element (odd
size) or average of the two middle elements (even size), and the mode pair
from the `frequencyMap` loop, whose iteration order is the parameter
`order`. -/
def statsAnalyze (input : List Int) (order : List Int) : Option StatsReport :=
  let n := input.length
  if n = 0 then none
  else
    let s := selection_sort input
    let mean : Rat := (s.sum : Rat) / (n : Rat)
    let median : Rat :=
      if n % 2 = 0 then ((s.getD (n / 2 - 1) 0 + s.getD (n / 2) 0 : Int) : Rat) / 2
      else ((s.getD (n / 2) 0 : Int) : Rat)
    let mf := statsMode s order
    some ⟨s.headD 0, s.getD (n - 1) 0, mean, median, mf.1, mf.2⟩

/-- `DuplicateAnalyzer::analyze` (lines 105-121): build `countMap` over the
(uncloned-order) values, then fold over its keys in iteration order `order`,
adding `count - 1` for every key whose count exceeds 1. -/
def duplicateAnalyze (l : List Int) (order : List Int) : Nat :=
  order.foldl (fun acc k => if 1 < l.count k then acc + (l.count k - 1) else acc) 0

/-- `MissingAnalyzer::analyze` (lines 131-147): build a presence map over
the values, then walk `i = 0, ..., 999` counting the domain values absent
from the map. -/
def missingAnalyze (l : List Int) : Nat :=
  (List.range 1000).foldl (fun acc (i : Nat) => if (i : Int) ∈ l then acc else acc + 1) 0

/-- Modelled from the spec (§4.3 Missing): "the number of integers in the
fixed domain 0..999 that do not occur in the sequence", stated directly as
the cardinality of the set of absent domain values, for comparison with the
loop of `missingAnalyze`. -/
def missingSpec (l : List Int) : Nat :=
  ((Finset.Icc (0 : Int) 999).filter (fun v => v ∉ l)).card

/-- `SearchAnalyzer` (lines 151-172): the constructor clones and sorts the
input; `analyze` performs one `binary_search` per element of `draws` (the
embedded `rand() % 1000` outcomes of the 100-iteration loop) against the
sorted copy and its stored size, and counts the hits. -/
def searchAnalyze (l : List Int) (draws : List Int) : Nat :=
  let s := selection_sort l
  draws.countP (fun k => binary_search s s.length k)

/-- Heap of integer arrays, one block per `new int[...]` allocation; a block
identifier is an index into the heap. -/
abbrev Heap := List (List Int)

/-- `Analyzer::cloneValues` (lines 27-31): allocate a fresh block
(`new int[size]`) and copy the caller's block into it (`std::copy`).
Returns the extended heap and the identifier of the fresh block stored in
`this->values`. -/
def cloneValues (h : Heap) (src : Nat) : Heap × Nat :=
  (h ++ [h.getD src []], h.length)

/-- Constructor of `DuplicateAnalyzer` / `MissingAnalyzer` (lines 102, 128):
clone only. -/
def plainCtor (h : Heap) (src : Nat) : Heap × Nat := cloneValues h src

/-- Constructor of `StatisticsAnalyzer` / `SearchAnalyzer` (lines 52-54,
154-156): clone, then `selection_sort(this->values, this->size)` on the
owned block. -/
def sortingCtor (h : Heap) (src : Nat) : Heap × Nat :=
  let hc := cloneValues h src
  (hc.1.set hc.2 (selection_sort (hc.1.getD hc.2 [])), hc.2)

/-! ## Correctness of the sort primitive -/

theorem swapList_zero_zero (x : Int) (t : List Int) : swapList (x :: t) 0 0 = x :: t := by
  simp [swapList]

theorem swapList_zero_succ (x b : Int) (t : List Int) (j : Nat) (hb : t[j]? = some b) :
    swapList (x :: t) 0 (j + 1) = b :: t.set j x := by
  simp [swapList, hb, List.set_cons_succ]

theorem perm_cons_set (x : Int) (t : List Int) : ∀ (j : Nat) (b : Int),
    t[j]? = some b → (x :: t).Perm (b :: t.set j x) := by
  induction t with
  | nil => intro j b hb; simp at hb
  | cons y ys ih =>
    intro j b hb
    cases j with
    | zero =>
      simp only [List.getElem?_cons_zero, Option.some_inj] at hb
      obtain rfl := hb
      simpa [List.set] using List.Perm.swap _ x ys
    | succ j =>
      simp only [List.getElem?_cons_succ] at hb
      have h1 : (x :: ys).Perm (b :: ys.set j x) := ih j b hb
      have h2 : (x :: y :: ys).Perm (y :: x :: ys) := List.Perm.swap y x ys
      have h3 : (y :: x :: ys).Perm (y :: b :: ys.set j x) := h1.cons y
      have h4 : (y :: b :: ys.set j x).Perm (b :: y :: ys.set j x) := List.Perm.swap b y _
      simpa [List.set] using (h2.trans h3).trans h4

theorem minIdxGo_spec : ∀ (ys : List Int) (bv : Int) (bi j : Nat),
    (minIdxGo ys bv bi j = bi ∧ minValGo ys bv = bv) ∨
    ∃ k, minIdxGo ys bv bi j = j + k ∧ ys[k]? = some (minValGo ys bv) := by
  intro ys
  induction ys with
  | nil => intro bv bi j; exact Or.inl ⟨rfl, rfl⟩
  | cons y ys ih =>
    intro bv bi j
    by_cases hy : y < bv
    · rcases ih y j (j + 1) with ⟨h1, h2⟩ | ⟨k, hk1, hk2⟩
      · exact Or.inr ⟨0, by simp [minIdxGo, hy, h1], by simp [minValGo, hy, h2]⟩
      · exact Or.inr ⟨k + 1, by simp [minIdxGo, hy, hk1]; omega, by simp [minValGo, hy, hk2]⟩
    · rcases ih bv bi (j + 1) with ⟨h1, h2⟩ | ⟨k, hk1, hk2⟩
      · exact Or.inl ⟨by simp [minIdxGo, hy, h1], by simp [minValGo, hy, h2]⟩
      · exact Or.inr ⟨k + 1, by simp [minIdxGo, hy, hk1]; omega, by simp [minValGo, hy, hk2]⟩

theorem minValGo_le : ∀ (ys : List Int) (bv : Int),
    minValGo ys bv ≤ bv ∧ ∀ z ∈ ys, minValGo ys bv ≤ z := by
  intro ys
  induction ys with
  | nil => intro bv; exact ⟨le_refl _, by simp⟩
  | cons y ys ih =>
    intro bv
    by_cases hy : y < bv
    · obtain ⟨h1, h2⟩ := ih y
      refine ⟨by simp only [minValGo, if_pos hy]; omega, ?_⟩
      intro z hz
      rcases List.mem_cons.mp hz with rfl | hz
      · simpa [minValGo, hy] using h1
      · simpa [minValGo, hy] using h2 z hz
    · obtain ⟨h1, h2⟩ := ih bv
      refine ⟨by simpa [minValGo, hy] using h1, ?_⟩
      intro z hz
      rcases List.mem_cons.mp hz with rfl | hz
      · simp only [minValGo, if_neg hy]; omega
      · simpa [minValGo, hy] using h2 z hz

theorem swap_min_head (x y : Int) (xs : List Int) :
    ∃ t, swapList (x :: y :: xs) 0 (minIdxGo (y :: xs) x 0 1) = minValGo (y :: xs) x :: t ∧
      (x :: y :: xs).Perm (minValGo (y :: xs) x :: t) ∧ t.length = xs.length + 1 := by
  rcases minIdxGo_spec (y :: xs) x 0 1 with ⟨h1, h2⟩ | ⟨k, hk1, hk2⟩
  · refine ⟨y :: xs, ?_, ?_, by simp⟩
    · rw [h1, h2, swapList_zero_zero]
    · rw [h2]
  · refine ⟨(y :: xs).set k x, ?_, ?_, by simp⟩
    · rw [hk1, Nat.add_comm 1 k]
      exact swapList_zero_succ x _ (y :: xs) k hk2
    · exact perm_cons_set x (y :: xs) k _ hk2

theorem selSortGo_perm : ∀ (fuel : Nat) (l : List Int), (selSortGo fuel l).Perm l := by
  intro fuel
  induction fuel with
  | zero => intro l; exact List.Perm.refl l
  | succ fuel ih =>
    intro l
    match l with
    | [] => exact List.Perm.refl []
    | [x] => exact List.Perm.refl [x]
    | x :: y :: xs =>
      obtain ⟨t, heq, hperm, _⟩ := swap_min_head x y xs
      show ((swapList (x :: y :: xs) 0 (minIdxGo (y :: xs) x 0 1)).headD 0 ::
        selSortGo fuel (swapList (x :: y :: xs) 0 (minIdxGo (y :: xs) x 0 1)).tail).Perm _
      rw [heq]
      simp only [List.headD_cons, List.tail_cons]
      exact ((ih t).cons (minValGo (y :: xs) x)).trans hperm.symm

theorem selSortGo_sorted : ∀ (fuel : Nat) (l : List Int), l.length ≤ fuel + 1 →
    List.Sorted (· ≤ ·) (selSortGo fuel l) := by
  intro fuel
  induction fuel with
  | zero =>
    intro l hl
    match l with
    | [] => exact List.sorted_nil
    | [x] => exact List.sorted_singleton x
    | x :: y :: xs => simp at hl
  | succ fuel ih =>
    intro l hl
    match l with
    | [] => exact List.sorted_nil
    | [x] => exact List.sorted_singleton x
    | x :: y :: xs =>
      obtain ⟨t, heq, hperm, hlen⟩ := swap_min_head x y xs
      show List.Sorted (· ≤ ·) ((swapList (x :: y :: xs) 0 (minIdxGo (y :: xs) x 0 1)).headD 0 ::
        selSortGo fuel (swapList (x :: y :: xs) 0 (minIdxGo (y :: xs) x 0 1)).tail)
      rw [heq]
      simp only [List.headD_cons, List.tail_cons]
      rw [List.sorted_cons]
      constructor
      · intro b hb
        have hbt : b ∈ t := (selSortGo_perm fuel t).mem_iff.mp hb
        have hbl : b ∈ x :: y :: xs := hperm.mem_iff.mpr (List.mem_cons_of_mem _ hbt)
        obtain ⟨h1, h2⟩ := minValGo_le (y :: xs) x
        rcases List.mem_cons.mp hbl with rfl | hbl
        · exact h1
        · exact h2 b hbl
      · exact ih t (by simp at hl ⊢; omega)

theorem selection_sort_perm (l : List Int) : (selection_sort l).Perm l :=
  selSortGo_perm l.length l

theorem selection_sort_sorted (l : List Int) : List.Sorted (· ≤ ·) (selection_sort l) :=
  selSortGo_sorted l.length l (by omega)

/-! ## Correctness of the search primitive -/

theorem bsr_eq (values : List Int) (key s e : Int) :
    binary_search_recursive values key s e =
      if s > e then false
      else if values.getD (s + (e - s) / 2).toNat 0 = key then true
      else if values.getD (s + (e - s) / 2).toNat 0 > key then
        binary_search_recursive values key s (s + (e - s) / 2 - 1)
      else binary_search_recursive values key (s + (e - s) / 2 + 1) e := by
  rw [binary_search_recursive]

theorem sorted_getD_mono {l : List Int} (hsort : List.Sorted (· ≤ ·) l) {i j : Nat}
    (hij : i ≤ j) (hj : j < l.length) : l.getD i 0 ≤ l.getD j 0 := by
  have hi : i < l.length := lt_of_le_of_lt hij hj
  rcases Nat.eq_or_lt_of_le hij with rfl | hlt
  · exact le_refl _
  · rw [List.getD_eq_getElem l 0 hi, List.getD_eq_getElem l 0 hj]
    exact hsort.rel_get_of_lt (a := ⟨i, hi⟩) (b := ⟨j, hj⟩) (Fin.mk_lt_mk.mpr hlt)

theorem bsr_found (values : List Int) (key : Int) :
    ∀ (N : Nat) (s e : Int), (e + 1 - s).toNat ≤ N → 0 ≤ s →
      binary_search_recursive values key s e = true →
      ∃ i : Nat, s ≤ (i : Int) ∧ (i : Int) ≤ e ∧ values.getD i 0 = key := by
  intro N
  induction N with
  | zero =>
    intro s e hN hs hb
    rw [bsr_eq, if_pos (by omega)] at hb
    exact absurd hb (by simp)
  | succ N ih =>
    intro s e hN hs hb
    by_cases hse : s > e
    · rw [bsr_eq, if_pos hse] at hb
      exact absurd hb (by simp)
    · rw [bsr_eq, if_neg hse] at hb
      by_cases hveq : values.getD (s + (e - s) / 2).toNat 0 = key
      · refine ⟨(s + (e - s) / 2).toNat, by omega, by omega, hveq⟩
      · rw [if_neg hveq] at hb
        by_cases hvgt : values.getD (s + (e - s) / 2).toNat 0 > key
        · rw [if_pos hvgt] at hb
          obtain ⟨i, h1, h2, h3⟩ := ih s (s + (e - s) / 2 - 1) (by omega) hs hb
          exact ⟨i, h1, by omega, h3⟩
        · rw [if_neg hvgt] at hb
          obtain ⟨i, h1, h2, h3⟩ := ih (s + (e - s) / 2 + 1) e (by omega) (by omega) hb
          exact ⟨i, by omega, h2, h3⟩

theorem bsr_complete (values : List Int) (key : Int)
    (hsort : List.Sorted (· ≤ ·) values) :
    ∀ (N : Nat) (s e : Int) (i : Nat), (e + 1 - s).toNat ≤ N → 0 ≤ s →
      e < (values.length : Int) → s ≤ (i : Int) → (i : Int) ≤ e →
      values.getD i 0 = key → binary_search_recursive values key s e = true := by
  intro N
  induction N with
  | zero => intro s e i hN hs he h1 h2 hkey; omega
  | succ N ih =>
    intro s e i hN hs he h1 h2 hkey
    rw [bsr_eq]
    have hse : ¬s > e := by omega
    rw [if_neg hse]
    have hm1 : s ≤ s + (e - s) / 2 := by omega
    have hm2 : s + (e - s) / 2 ≤ e := by omega
    by_cases hveq : values.getD (s + (e - s) / 2).toNat 0 = key
    · rw [if_pos hveq]
    · rw [if_neg hveq]
      have hmlen : (s + (e - s) / 2).toNat < values.length := by omega
      by_cases hvgt : values.getD (s + (e - s) / 2).toNat 0 > key
      · rw [if_pos hvgt]
        have hineq : (i : Int) < s + (e - s) / 2 := by
          by_contra hc
          push_neg at hc
          have hmono : values.getD (s + (e - s) / 2).toNat 0 ≤ values.getD i 0 :=
            sorted_getD_mono hsort (by omega) (by omega)
          omega
        exact ih s (s + (e - s) / 2 - 1) i (by omega) hs (by omega) h1 (by omega) hkey
      · rw [if_neg hvgt]
        have hineq : s + (e - s) / 2 < (i : Int) := by
          by_contra hc
          push_neg at hc
          have hmono : values.getD i 0 ≤ values.getD (s + (e - s) / 2).toNat 0 :=
            sorted_getD_mono hsort (by omega) hmlen
          omega
        exact ih (s + (e - s) / 2 + 1) e i (by omega) (by omega) he (by omega) h2 hkey

theorem binary_search_mem_true {s : List Int} (hsort : List.Sorted (· ≤ ·) s) {key : Int}
    (hmem : key ∈ s) : binary_search s s.length key = true := by
  obtain ⟨i, hi, hEq⟩ := List.mem_iff_getElem.mp hmem
  exact bsr_complete s key hsort ((s.length : Int) + 1 - 0).toNat 0 ((s.length : Int) - 1) i
    (by omega) (by omega) (by omega) (by omega) (by omega)
    (by rw [List.getD_eq_getElem s 0 hi]; exact hEq)

theorem binary_search_start_gt (values : List Int) (key s e : Int) (hse : s > e) :
    binary_search_recursive values key s e = false := by
  rw [bsr_eq, if_pos hse]

/-! ## The mode loop of the Statistics analyzer -/

theorem statsModeGo_ge (s : List Int) :
    ∀ (order : List Int) (p : Int × Nat),
      p.2 ≤ (order.foldl (fun acc k => if s.count k > acc.2 then (k, s.count k) else acc) p).2 ∧
      ∀ k ∈ order,
        s.count k ≤ (order.foldl (fun acc k => if s.count k > acc.2 then (k, s.count k) else acc) p).2 := by
  intro order
  induction order with
  | nil => intro p; exact ⟨le_refl _, by simp⟩
  | cons q rest ih =>
    intro p
    simp only [List.foldl_cons]
    by_cases hq : s.count q > p.2
    · rw [if_pos hq]
      obtain ⟨h1, h2⟩ := ih (q, s.count q)
      refine ⟨le_trans (le_of_lt hq) h1, ?_⟩
      intro k hkmem
      rcases List.mem_cons.mp hkmem with rfl | hkmem
      · exact h1
      · exact h2 k hkmem
    · rw [if_neg hq]
      obtain ⟨h1, h2⟩ := ih p
      refine ⟨h1, ?_⟩
      intro k hkmem
      rcases List.mem_cons.mp hkmem with rfl | hkmem
      · omega
      · exact h2 k hkmem

theorem statsModeGo_cases (s : List Int) :
    ∀ (order : List Int) (p : Int × Nat),
      order.foldl (fun acc k => if s.count k > acc.2 then (k, s.count k) else acc) p = p ∨
      ∃ k ∈ order,
        order.foldl (fun acc k => if s.count k > acc.2 then (k, s.count k) else acc) p =
          (k, s.count k) := by
  intro order
  induction order with
  | nil => intro p; exact Or.inl rfl
  | cons q rest ih =>
    intro p
    simp only [List.foldl_cons]
    by_cases hq : s.count q > p.2
    · rw [if_pos hq]
      rcases ih (q, s.count q) with h | ⟨k, hk, h⟩
      · exact Or.inr ⟨q, List.mem_cons_self _ _, h⟩
      · exact Or.inr ⟨k, List.mem_cons_of_mem _ hk, h⟩
    · rw [if_neg hq]
      rcases ih p with h | ⟨k, hk, h⟩
      · exact Or.inl h
      · exact Or.inr ⟨k, List.mem_cons_of_mem _ hk, h⟩

theorem statsModeGo_all_one (s : List Int) (hall : ∀ k : Int, s.count k ≤ 1) :
    ∀ (order : List Int) (m : Int),
      order.foldl (fun acc k => if s.count k > acc.2 then (k, s.count k) else acc) (m, 1) =
        (m, 1) := by
  intro order
  induction order with
  | nil => intro m; rfl
  | cons q rest ih =>
    intro m
    simp only [List.foldl_cons]
    rw [if_neg (show ¬s.count q > 1 by have := hall q; omega)]
    exact ih m

theorem headD_mem {s : List Int} (hne : s ≠ []) : s.headD 0 ∈ s := by
  cases s with
  | nil => exact absurd rfl hne
  | cons a t => exact List.mem_cons_self a t

theorem statsMode_spec (s : List Int) (hne : s ≠ []) (order : List Int)
    (horder : order.Perm s.dedup) :
    s.count (statsMode s order).1 = (statsMode s order).2 ∧
      ∀ v : Int, s.count v ≤ (statsMode s order).2 := by
  have hgen : ∀ v : Int, s.count v ≤ (statsMode s order).2 := by
    intro v
    by_cases hv : v ∈ s
    · have hvo : v ∈ order := horder.mem_iff.mpr (List.mem_dedup.mpr hv)
      exact (statsModeGo_ge s order (s.headD 0, 1)).2 v hvo
    · simp [List.count_eq_zero.mpr hv]
  refine ⟨?_, hgen⟩
  rcases statsModeGo_cases s order (s.headD 0, 1) with h | ⟨k, hk, h⟩
  · have hres : statsMode s order = (s.headD 0, 1) := h
    have hmem : s.headD 0 ∈ s := headD_mem hne
    have h1 : 0 < s.count (s.headD 0) := List.count_pos_iff.mpr hmem
    have h2 : s.count (s.headD 0) ≤ 1 := by
      have hg := hgen (s.headD 0)
      rw [hres] at hg
      exact hg
    rw [hres]
    show s.count (s.headD 0) = 1
    omega
  · have hres : statsMode s order = (k, s.count k) := h
    rw [hres]

/-! ## The Duplicate analyzer loop -/

theorem duplicateGo_eq_sum (l : List Int) :
    ∀ (order : List Int) (a : Nat),
      order.foldl (fun acc k => if 1 < l.count k then acc + (l.count k - 1) else acc) a =
        a + (order.map (fun k => l.count k - 1)).sum := by
  intro order
  induction order with
  | nil => intro a; simp
  | cons q rest ih =>
    intro a
    simp only [List.foldl_cons, List.map_cons, List.sum_cons]
    by_cases hq : 1 < l.count q
    · rw [if_pos hq, ih]
      omega
    · rw [if_neg hq, ih]
      omega

theorem length_le_sum_map (c : Int → Nat) :
    ∀ (L : List Int), (∀ k ∈ L, 1 ≤ c k) → L.length ≤ (L.map c).sum := by
  intro L
  induction L with
  | nil => simp
  | cons q rest ih =>
    intro hpos
    simp only [List.map_cons, List.sum_cons, List.length_cons]
    have h1 := hpos q (List.mem_cons_self _ _)
    have h2 := ih (fun k hk => hpos k (List.mem_cons_of_mem _ hk))
    omega

theorem sum_map_sub_one (c : Int → Nat) :
    ∀ (L : List Int), (∀ k ∈ L, 1 ≤ c k) →
      (L.map (fun k => c k - 1)).sum = (L.map c).sum - L.length := by
  intro L
  induction L with
  | nil => simp
  | cons q rest ih =>
    intro hpos
    simp only [List.map_cons, List.sum_cons, List.length_cons]
    rw [ih (fun k hk => hpos k (List.mem_cons_of_mem _ hk))]
    have h1 := hpos q (List.mem_cons_self _ _)
    have h2 := length_le_sum_map c rest (fun k hk => hpos k (List.mem_cons_of_mem _ hk))
    omega

theorem duplicateAnalyze_eq (l : List Int) (order : List Int) (horder : order.Perm l.dedup) :
    duplicateAnalyze l order = l.length - l.dedup.length := by
  show order.foldl (fun acc k => if 1 < l.count k then acc + (l.count k - 1) else acc) 0 = _
  rw [duplicateGo_eq_sum, Nat.zero_add, (horder.map (fun k => l.count k - 1)).sum_eq]
  have hpos : ∀ k ∈ l.dedup, 1 ≤ l.count k :=
    fun k hk => List.count_pos_iff.mpr (List.mem_dedup.mp hk)
  rw [sum_map_sub_one (fun k => l.count k) l.dedup hpos,
    List.sum_map_count_dedup_eq_length l]

/-! ## The Missing analyzer loop -/

theorem missingGo_eq (l : List Int) :
    ∀ (L : List Nat) (a : Nat),
      L.foldl (fun acc (i : Nat) => if (i : Int) ∈ l then acc else acc + 1) a =
        a + L.countP (fun (i : Nat) => decide ((i : Int) ∉ l)) := by
  intro L
  induction L with
  | nil => intro a; simp
  | cons q rest ih =>
    intro a
    simp only [List.foldl_cons, List.countP_cons]
    by_cases hq : (q : Int) ∈ l
    · have hd : decide ((q : Int) ∉ l) = false := by simp [hq]
      rw [if_pos hq, ih, hd, if_neg (by decide : ¬false = true)]
      omega
    · have hd : decide ((q : Int) ∉ l) = true := by simp [hq]
      rw [if_neg hq, ih, hd, if_pos rfl]
      omega

theorem missingAnalyze_eq_countP (l : List Int) :
    missingAnalyze l = (List.range 1000).countP (fun (i : Nat) => decide ((i : Int) ∉ l)) :=
  (missingGo_eq l (List.range 1000) 0).trans (Nat.zero_add _)

theorem finset_range_filter_card (n : Nat) (p : Nat → Prop) [DecidablePred p] :
    ((Finset.range n).filter p).card = (List.range n).countP (fun i => decide (p i)) := by
  rw [List.countP_eq_length_filter, Finset.card_def, Finset.filter_val, Finset.range_val]
  show Multiset.card (Multiset.filter p ↑(List.range n)) = _
  rw [Multiset.filter_coe, Multiset.coe_card]

theorem missingAnalyze_eq_spec (l : List Int) : missingAnalyze l = missingSpec l := by
  rw [missingAnalyze_eq_countP, ← finset_range_filter_card 1000 (fun i => (i : Int) ∉ l)]
  unfold missingSpec
  refine Finset.card_bij (fun (a : Nat) _ => (a : Int)) ?_ ?_ ?_
  · intro a ha
    simp only [Finset.mem_filter, Finset.mem_range] at ha
    simp only [Finset.mem_filter, Finset.mem_Icc]
    exact ⟨⟨by omega, by omega⟩, ha.2⟩
  · intro a1 h1 a2 h2 hEq
    have hcast : (a1 : Int) = a2 := hEq
    exact_mod_cast hcast
  · intro b hb
    simp only [Finset.mem_filter, Finset.mem_Icc] at hb
    refine ⟨b.toNat, ?_, Int.toNat_of_nonneg hb.1.1⟩
    simp only [Finset.mem_filter, Finset.mem_range]
    refine ⟨by omega, ?_⟩
    rw [Int.toNat_of_nonneg hb.1.1]
    exact hb.2

/-! ## Sorted-list facts used by the Statistics analyzer -/

theorem sorted_headD_le {s : List Int} (hsort : List.Sorted (· ≤ ·) s) :
    ∀ x ∈ s, s.headD 0 ≤ x := by
  cases s with
  | nil => intro x hx; simp at hx
  | cons a t =>
    intro x hx
    rcases List.mem_cons.mp hx with rfl | hx
    · exact le_refl _
    · exact ((List.sorted_cons.mp hsort).1) x hx

theorem le_sorted_getLast {s : List Int} (hsort : List.Sorted (· ≤ ·) s) :
    ∀ x ∈ s, x ≤ s.getD (s.length - 1) 0 := by
  intro x hx
  obtain ⟨i, hi, rfl⟩ := List.mem_iff_getElem.mp hx
  rw [← List.getD_eq_getElem s 0 hi]
  exact sorted_getD_mono hsort (by omega) (by omega)

theorem getD_last_mem {s : List Int} (hne : s ≠ []) : s.getD (s.length - 1) 0 ∈ s := by
  have hlen : 0 < s.length := List.length_pos.mpr hne
  rw [List.getD_eq_getElem s 0 (by omega)]
  exact List.getElem_mem _

/-! ## Heap facts for the constructors -/

theorem sortingCtor_eq (h : Heap) (src : Nat) :
    sortingCtor h src = (h ++ [selection_sort (h.getD src [])], h.length) := by
  unfold sortingCtor cloneValues
  simp only
  rw [List.getD_append_right _ _ _ _ (le_refl h.length), Nat.sub_self]
  rw [List.set_append_right _ _ (le_refl h.length), Nat.sub_self]
  rfl

/-! ## Claim theorems -/

/-- C1: `selection_sort` sorts its input into non-decreasing order and the
result is a permutation of the input (so the length and the multiset of
values are unchanged); a sequence of length 0 or 1 is left unchanged. -/
theorem selection_sort_correct (l : List Int) :
    (selection_sort l).Perm l ∧ List.Sorted (· ≤ ·) (selection_sort l) ∧
      (selection_sort l).length = l.length ∧ (l.length ≤ 1 → selection_sort l = l) := by
  refine ⟨selection_sort_perm l, selection_sort_sorted l, (selection_sort_perm l).length_eq, ?_⟩
  intro hl
  cases l with
  | nil => rfl
  | cons a t =>
    cases t with
    | nil => rfl
    | cons b u => simp at hl

/-- Witness for C1 at the singleton input [7]. -/
theorem selection_sort_correct_witness : selection_sort [7] = [7] :=
  (selection_sort_correct [7]).2.2.2 (by decide)

/-- C2: on a sequence sorted in ascending order, `binary_search` over the
first `n` elements returns true iff the key occurs among them (so it
returns false for every key when `n = 0`), and the recursion reports
not-found whenever `start` exceeds `end`. -/
theorem binary_search_correct (values : List Int) (n : Nat) (key : Int) (s e : Int)
    (hsort : List.Sorted (· ≤ ·) values) (hn : n ≤ values.length) :
    (binary_search values n key = true ↔ key ∈ values.take n) ∧
      (s > e → binary_search_recursive values key s e = false) := by
  refine ⟨⟨?_, ?_⟩, fun hse => binary_search_start_gt values key s e hse⟩
  · intro hb
    obtain ⟨i, h1, h2, h3⟩ := bsr_found values key ((n : Int) - 1 + 1 - 0).toNat 0 ((n : Int) - 1)
      (le_refl _) (le_refl 0) hb
    have hi_n : i < n := by omega
    have hi_len : i < values.length := lt_of_lt_of_le hi_n hn
    rw [List.getD_eq_getElem values 0 hi_len] at h3
    refine List.mem_iff_getElem.mpr ⟨i, ?_, ?_⟩
    · simp only [List.length_take]
      omega
    · rw [List.getElem_take]
      exact h3
  · intro hmem
    obtain ⟨i, hi, hEq⟩ := List.mem_iff_getElem.mp hmem
    have hlen : (values.take n).length = min n values.length := List.length_take _ _
    have hi_n : i < n := by rw [hlen] at hi; omega
    have hi_len : i < values.length := by rw [hlen] at hi; omega
    have hkey : values.getD i 0 = key := by
      rw [List.getD_eq_getElem values 0 hi_len]
      rw [List.getElem_take] at hEq
      exact hEq
    exact bsr_complete values key hsort ((n : Int) - 1 + 1 - 0).toNat 0 ((n : Int) - 1) i
      (le_refl _) (le_refl 0) (by omega) (by omega) (by omega) hkey

/-- Witness for C2 at values [1,3], n = 2, key = 3, and bounds start = 1 >
end = 0. -/
theorem binary_search_correct_witness :
    (binary_search [1, 3] 2 3 = true ↔ (3 : Int) ∈ ([1, 3] : List Int).take 2) ∧
      binary_search_recursive [1, 3] 3 1 0 = false :=
  ⟨(binary_search_correct [1, 3] 2 3 1 0 (by decide) (by decide)).1,
    (binary_search_correct [1, 3] 2 3 1 0 (by decide) (by decide)).2 (by decide)⟩

/-- C8: on the empty sequence the Statistics analyzer returns the sentinel
"no data" report (modelled as `none`) and computes no measure. -/
theorem statsAnalyze_empty (order : List Int) : statsAnalyze [] order = none := rfl

/-- C5: the Duplicate analyzer reports the sum, over the distinct values
occurring k > 1 times, of k - 1 — the number of redundant instances, equal
to the length minus the number of distinct values, independently of the
map's iteration order; on [5,5,5,7,9,9] it reports 3, on [] it reports 0. -/
theorem duplicateAnalyze_spec (l : List Int) (order : List Int) (horder : order.Perm l.dedup) :
    duplicateAnalyze l order = (l.dedup.map (fun k => l.count k - 1)).sum ∧
      duplicateAnalyze l order = l.length - l.dedup.length ∧
      (l = [5, 5, 5, 7, 9, 9] → duplicateAnalyze l order = 3) ∧
      (l = [] → duplicateAnalyze l order = 0) := by
  have h1 : duplicateAnalyze l order = (order.map (fun k => l.count k - 1)).sum :=
    (duplicateGo_eq_sum l order 0).trans (Nat.zero_add _)
  have h1d : duplicateAnalyze l order = (l.dedup.map (fun k => l.count k - 1)).sum := by
    rw [h1, (horder.map (fun k => l.count k - 1)).sum_eq]
  have h2 := duplicateAnalyze_eq l order horder
  refine ⟨h1d, h2, ?_, ?_⟩
  · intro hl
    subst hl
    rw [h2]
    decide
  · intro hl
    subst hl
    rw [h2]
    rfl

/-- Witness for C5 at [5,5,5,7,9,9] with key iteration order [5,7,9]. -/
theorem duplicateAnalyze_spec_witness : duplicateAnalyze [5, 5, 5, 7, 9, 9] [5, 7, 9] = 3 :=
  (duplicateAnalyze_spec [5, 5, 5, 7, 9, 9] [5, 7, 9] (by decide)).2.2.1 rfl

/-- C6: the Missing analyzer reports the number of integers of the fixed
domain [0,1000) absent from the sequence, whatever the sequence's own value
range: out-of-domain values do not change the report, and the empty
sequence yields 1000. -/
theorem missingAnalyze_correct (l : List Int) :
    missingAnalyze l = missingSpec l ∧
      (∀ x : Int, x < 0 ∨ 1000 ≤ x → missingAnalyze (x :: l) = missingAnalyze l) ∧
      missingAnalyze [] = 1000 := by
  refine ⟨missingAnalyze_eq_spec l, ?_, ?_⟩
  · intro x hx
    rw [missingAnalyze_eq_countP, missingAnalyze_eq_countP]
    refine List.countP_congr ?_
    intro i hi
    have hi1000 : i < 1000 := List.mem_range.mp hi
    have hne : (i : Int) ≠ x := by omega
    simp [List.mem_cons, hne]
  · rw [missingAnalyze_eq_countP]
    rw [List.countP_eq_length.mpr (by intro a ha; simp)]
    exact List.length_range 1000

/-- Witness for C6 at [3, 1500] with out-of-domain head -2. -/
theorem missingAnalyze_correct_witness :
    missingAnalyze (-2 :: [3, 1500]) = missingAnalyze [3, 1500] :=
  (missingAnalyze_correct [3, 1500]).2.1 (-2) (by decide)

/-- C7: the Search analyzer performs one lookup per draw against its sorted
copy and reports the number of hits: for any sequence of 100 draws from
[0,1000), data containing every value of [0,1000) yields a report of 100,
and empty data yields 0. -/
theorem searchAnalyze_spec (l : List Int) (draws : List Int)
    (hlen : draws.length = 100) (hrange : ∀ k ∈ draws, 0 ≤ k ∧ k < 1000) :
    ((∀ v : Int, 0 ≤ v → v < 1000 → v ∈ l) → searchAnalyze l draws = 100) ∧
      (l = [] → searchAnalyze l draws = 0) := by
  constructor
  · intro hall
    show draws.countP (fun k => binary_search (selection_sort l) (selection_sort l).length k) = 100
    rw [← hlen]
    apply List.countP_eq_length.mpr
    intro k hk
    have hkr := hrange k hk
    have hkl : k ∈ l := hall k hkr.1 hkr.2
    have hks : k ∈ selection_sort l := (selection_sort_perm l).mem_iff.mpr hkl
    simpa using binary_search_mem_true (selection_sort_sorted l) hks
  · intro hl
    subst hl
    show List.countP (fun k => binary_search (selection_sort []) (selection_sort []).length k)
      draws = 0
    apply List.countP_eq_zero.mpr
    intro k hk
    simpa using binary_search_start_gt ([] : List Int) k 0 (-1) (by omega)

/-- Witness for C7 on empty data with 100 draws of 0. -/
theorem searchAnalyze_spec_witness : searchAnalyze [] (List.replicate 100 0) = 0 :=
  (searchAnalyze_spec [] (List.replicate 100 0) (by decide) (by decide)).2 rfl

theorem selection_sort_ne_nil {l : List Int} (hne : l ≠ []) : selection_sort l ≠ [] := by
  intro hc
  have hp := selection_sort_perm l
  rw [hc] at hp
  exact hne (hp.symm.eq_nil)

/-- Representation of the non-empty Statistics report: one record whose
fields are exactly the expressions of `statsAnalyze`. -/
theorem statsAnalyze_some (l : List Int) (order : List Int) (hlen : ¬l.length = 0) :
    statsAnalyze l order = some
      ⟨(selection_sort l).headD 0, (selection_sort l).getD (l.length - 1) 0,
        ((selection_sort l).sum : Rat) / (l.length : Rat),
        if l.length % 2 = 0 then
          (((selection_sort l).getD (l.length / 2 - 1) 0 +
            (selection_sort l).getD (l.length / 2) 0 : Int) : Rat) / 2
        else (((selection_sort l).getD (l.length / 2) 0 : Int) : Rat),
        (statsMode (selection_sort l) order).1, (statsMode (selection_sort l) order).2⟩ := by
  simp only [statsAnalyze]
  rw [if_neg hlen]

/-- C3 (amended): for every iteration order of the frequency map, the mode
reported by the Statistics analyzer is a value of maximal frequency and its
reported count is that frequency; which of several tied values is reported
depends on the unspecified map order (see the counterexample). -/
theorem statsAnalyze_mode_max (l : List Int) (order : List Int) (hne : l ≠ [])
    (horder : order.Perm (selection_sort l).dedup) :
    ∃ r : StatsReport, statsAnalyze l order = some r ∧
      l.count r.mode = r.modeCount ∧ ∀ v : Int, l.count v ≤ r.modeCount := by
  have hlen : ¬l.length = 0 := fun hc => hne (List.length_eq_zero.mp hc)
  obtain ⟨hc, hmax⟩ := statsMode_spec (selection_sort l) (selection_sort_ne_nil hne) order horder
  rw [statsAnalyze_some l order hlen]
  refine ⟨_, rfl, ?_, ?_⟩
  · show l.count (statsMode (selection_sort l) order).1 = (statsMode (selection_sort l) order).2
    rw [← (selection_sort_perm l).count_eq]
    exact hc
  · intro v
    show l.count v ≤ (statsMode (selection_sort l) order).2
    rw [← (selection_sort_perm l).count_eq]
    exact hmax v

/-- Witness for C3 at [1,1,2] with iteration order [1,2]. -/
theorem statsAnalyze_mode_max_witness :
    ∃ r : StatsReport, statsAnalyze [1, 1, 2] [1, 2] = some r ∧
      ([1, 1, 2] : List Int).count r.mode = r.modeCount ∧
      ∀ v : Int, ([1, 1, 2] : List Int).count v ≤ r.modeCount :=
  statsAnalyze_mode_max [1, 1, 2] [1, 2] (by decide) (by decide)

/-- C3 counterexample: on the data [1,1,2,2] the values 1 and 2 are tied at
frequency 2; under the valid key iteration order [2,1] the analyzer reports
mode 2 with count 2, although the earliest tied value in sorted order is 1
(1 < 2).  The tie-break of the claim therefore does not hold of the code
for every map iteration order. -/
theorem statsAnalyze_tie_order_dependent :
    ([2, 1] : List Int).Perm (selection_sort [1, 1, 2, 2]).dedup ∧
      statsAnalyze [1, 1, 2, 2] [2, 1] = some ⟨1, 2, 3 / 2, 3 / 2, 2, 2⟩ ∧
      ([1, 1, 2, 2] : List Int).count 1 = 2 ∧ (1 : Int) < 2 := by
  refine ⟨by decide, ?_, by decide, by decide⟩
  rw [statsAnalyze_some [1, 1, 2, 2] [2, 1] (by decide)]
  have hs : selection_sort [1, 1, 2, 2] = [1, 1, 2, 2] := by decide
  rw [hs]
  simp only [Option.some_inj, StatsReport.mk.injEq]
  refine ⟨by decide, by decide, ?_, ?_, by decide, by decide⟩
  · norm_num [List.sum_cons, List.sum_nil]
  · norm_num [List.getD_cons_succ, List.getD_cons_zero]

/-- C10: on a non-empty sequence without repeated values the Statistics
analyzer reports, for every map iteration order, the minimum element as the
mode, with frequency 1. -/
theorem statsAnalyze_nodup_mode (l : List Int) (order : List Int) (hne : l ≠ [])
    (hnd : l.Nodup) (horder : order.Perm (selection_sort l).dedup) :
    ∃ r : StatsReport, statsAnalyze l order = some r ∧
      r.mode ∈ l ∧ (∀ x ∈ l, r.mode ≤ x) ∧ r.modeCount = 1 := by
  have hlen : ¬l.length = 0 := fun hc => hne (List.length_eq_zero.mp hc)
  have hsnd : (selection_sort l).Nodup := ((selection_sort_perm l).nodup_iff).mpr hnd
  have hall : ∀ k : Int, (selection_sort l).count k ≤ 1 := List.nodup_iff_count_le_one.mp hsnd
  have hmode : statsMode (selection_sort l) order = ((selection_sort l).headD 0, 1) :=
    statsModeGo_all_one (selection_sort l) hall order ((selection_sort l).headD 0)
  rw [statsAnalyze_some l order hlen]
  refine ⟨_, rfl, ?_, ?_, ?_⟩
  · show (statsMode (selection_sort l) order).1 ∈ l
    rw [hmode]
    exact (selection_sort_perm l).mem_iff.mp (headD_mem (selection_sort_ne_nil hne))
  · intro x hx
    show (statsMode (selection_sort l) order).1 ≤ x
    rw [hmode]
    exact sorted_headD_le (selection_sort_sorted l) x ((selection_sort_perm l).mem_iff.mpr hx)
  · show (statsMode (selection_sort l) order).2 = 1
    rw [hmode]

/-- Witness for C10 at [3,1,2] with iteration order [1,2,3]. -/
theorem statsAnalyze_nodup_mode_witness :
    ∃ r : StatsReport, statsAnalyze [3, 1, 2] [1, 2, 3] = some r ∧
      r.mode ∈ ([3, 1, 2] : List Int) ∧ (∀ x ∈ ([3, 1, 2] : List Int), r.mode ≤ x) ∧
      r.modeCount = 1 :=
  statsAnalyze_nodup_mode [3, 1, 2] [1, 2, 3] (by decide) (by decide) (by decide)

/-- C9: constructing an analyzer allocates a fresh block holding a deep copy
of the caller's sequence and leaves the caller's block untouched — also for
the Statistics/Search constructors, which sort their own copy only. -/
theorem analyzer_ctor_frame (h : Heap) (src : Nat) (hsrc : src < h.length) :
    (plainCtor h src).1.getD src [] = h.getD src [] ∧
      (sortingCtor h src).1.getD src [] = h.getD src [] ∧
      (plainCtor h src).2 ≠ src ∧ (sortingCtor h src).2 ≠ src ∧
      (plainCtor h src).1.getD (plainCtor h src).2 [] = h.getD src [] ∧
      (sortingCtor h src).1.getD (sortingCtor h src).2 [] =
        selection_sort (h.getD src []) := by
  have hplain : plainCtor h src = (h ++ [h.getD src []], h.length) := rfl
  have hsorting := sortingCtor_eq h src
  refine ⟨?_, ?_, ?_, ?_, ?_, ?_⟩
  · rw [hplain]
    exact List.getD_append _ _ _ _ hsrc
  · rw [hsorting]
    exact List.getD_append _ _ _ _ hsrc
  · rw [hplain]
    show h.length ≠ src
    omega
  · rw [hsorting]
    show h.length ≠ src
    omega
  · rw [hplain]
    show (h ++ [h.getD src []]).getD h.length [] = h.getD src []
    rw [List.getD_append_right _ _ _ _ (le_refl _), Nat.sub_self]
    rfl
  · rw [hsorting]
    show (h ++ [selection_sort (h.getD src [])]).getD h.length [] =
      selection_sort (h.getD src [])
    rw [List.getD_append_right _ _ _ _ (le_refl _), Nat.sub_self]
    rfl

/-- Witness for C9 on the one-block heap [[2,1]]. -/
theorem analyzer_ctor_frame_witness :
    (sortingCtor [[2, 1]] 0).1.getD 0 [] = ([[2, 1]] : Heap).getD 0 [] :=
  (analyzer_ctor_frame [[2, 1]] 0 (by decide)).2.1

/-- C4: for every non-empty sequence and every map iteration order, the
Statistics analyzer reports the minimum as min, the maximum as max, sum/n
as mean, and the middle element (odd n) or the average of the two middle
elements (even n) of the sorted copy as median; on [1,2,2,3,4] the full
report is min=1, max=4, mean=12/5, median=2, mode=2 with count 2. -/
theorem statsAnalyze_report (l : List Int) (order : List Int) (hne : l ≠ [])
    (horder : order.Perm (selection_sort l).dedup) :
    ∃ r : StatsReport, statsAnalyze l order = some r ∧
      r.minVal ∈ l ∧ (∀ x ∈ l, r.minVal ≤ x) ∧
      r.maxVal ∈ l ∧ (∀ x ∈ l, x ≤ r.maxVal) ∧
      r.mean = (l.sum : Rat) / (l.length : Rat) ∧
      (l.length % 2 = 1 → r.median = (((selection_sort l).getD (l.length / 2) 0 : Int) : Rat)) ∧
      (l.length % 2 = 0 → r.median =
        (((selection_sort l).getD (l.length / 2 - 1) 0 +
          (selection_sort l).getD (l.length / 2) 0 : Int) : Rat) / 2) ∧
      (l = [1, 2, 2, 3, 4] → r = ⟨1, 4, 12 / 5, 2, 2, 2⟩) := by
  have hlen : ¬l.length = 0 := fun hc => hne (List.length_eq_zero.mp hc)
  have hsne := selection_sort_ne_nil hne
  have hll : (selection_sort l).length = l.length := (selection_sort_perm l).length_eq
  rw [statsAnalyze_some l order hlen]
  refine ⟨_, rfl, ?_, ?_, ?_, ?_, ?_, ?_, ?_, ?_⟩
  · show (selection_sort l).headD 0 ∈ l
    exact (selection_sort_perm l).mem_iff.mp (headD_mem hsne)
  · intro x hx
    exact sorted_headD_le (selection_sort_sorted l) x ((selection_sort_perm l).mem_iff.mpr hx)
  · show (selection_sort l).getD (l.length - 1) 0 ∈ l
    rw [← hll]
    exact (selection_sort_perm l).mem_iff.mp (getD_last_mem hsne)
  · intro x hx
    show x ≤ (selection_sort l).getD (l.length - 1) 0
    rw [← hll]
    exact le_sorted_getLast (selection_sort_sorted l) x ((selection_sort_perm l).mem_iff.mpr hx)
  · show ((selection_sort l).sum : Rat) / (l.length : Rat) = (l.sum : Rat) / (l.length : Rat)
    rw [(selection_sort_perm l).sum_eq]
  · intro hodd
    show (if l.length % 2 = 0 then _ else _) = _
    rw [if_neg (by omega)]
  · intro heven
    show (if l.length % 2 = 0 then _ else _) = _
    rw [if_pos heven]
  · intro hl
    subst hl
    have hs5 : selection_sort [1, 2, 2, 3, 4] = [1, 2, 2, 3, 4] := by decide
    rw [hs5] at horder ⊢
    have hd5 : ([1, 2, 2, 3, 4] : List Int).dedup = [1, 2, 3, 4] := by decide
    rw [hd5] at horder
    obtain ⟨hc, hmax⟩ := statsMode_spec [1, 2, 2, 3, 4] (by decide) order (by rw [hd5]; exact horder)
    have hcnt2 : ([1, 2, 2, 3, 4] : List Int).count 2 = 2 := by decide
    have h2le : 2 ≤ (statsMode [1, 2, 2, 3, 4] order).2 := by
      have := hmax 2
      omega
    have hmem : (statsMode [1, 2, 2, 3, 4] order).1 ∈ ([1, 2, 2, 3, 4] : List Int) := by
      apply List.count_pos_iff.mp
      omega
    have hmode1 : (statsMode [1, 2, 2, 3, 4] order).1 = 2 := by
      rcases (show (statsMode [1, 2, 2, 3, 4] order).1 = 1 ∨
          (statsMode [1, 2, 2, 3, 4] order).1 = 2 ∨
          (statsMode [1, 2, 2, 3, 4] order).1 = 3 ∨
          (statsMode [1, 2, 2, 3, 4] order).1 = 4 by simpa using hmem) with h | h | h | h
      · rw [h] at hc
        have hcnt1 : ([1, 2, 2, 3, 4] : List Int).count 1 = 1 := by decide
        omega
      · exact h
      · rw [h] at hc
        have hcnt3 : ([1, 2, 2, 3, 4] : List Int).count 3 = 1 := by decide
        omega
      · rw [h] at hc
        have hcnt4 : ([1, 2, 2, 3, 4] : List Int).count 4 = 1 := by decide
        omega
    have hmode2 : (statsMode [1, 2, 2, 3, 4] order).2 = 2 := by
      rw [hmode1] at hc
      omega
    simp only [StatsReport.mk.injEq]
    refine ⟨by decide, by decide, ?_, ?_, hmode1, hmode2⟩
    · norm_num [List.sum_cons, List.sum_nil]
    · norm_num [List.getD_cons_succ, List.getD_cons_zero]

/-- Witness for C4 at [1,2,2,3,4] with iteration order [1,2,3,4]. -/
theorem statsAnalyze_report_witness :
    statsAnalyze [1, 2, 2, 3, 4] [1, 2, 3, 4] = some ⟨1, 4, 12 / 5, 2, 2, 2⟩ := by
  obtain ⟨r, hr, -, -, -, -, -, -, -, hconc⟩ :=
    statsAnalyze_report [1, 2, 2, 3, 4] [1, 2, 3, 4] (by decide) (by decide)
  rw [hr, hconc rfl]
